import Mathlib

/-!
Verification of the reference-graph traversal and exclusion engine of the
obsidian-share-as-zip plugin (src/main.ts), shallowly embedded in Lean 4.
Strings are modelled as `List Char`; JavaScript `toLowerCase` is modelled
as ASCII lowercasing (`Char.toLower`), which agrees with it on the ASCII
range used throughout the claims.
-/

set_option maxHeartbeats 1000000
set_option maxRecDepth 8000
set_option synthInstance.maxHeartbeats 400000

/-- JS `\s` whitespace class (WhiteSpace plus LineTerminator productions). -/
def isJsWhitespace (c : Char) : Bool :=
  c = ' ' || c = '\t' || c = '\n' || c = (Char.ofNat 11) || c = (Char.ofNat 12) ||
  c = '\r' || c = (Char.ofNat 0xa0) || c = (Char.ofNat 0x1680) ||
  (0x2000 ≤ c.toNat && c.toNat ≤ 0x200a) || c = (Char.ofNat 0x2028) ||
  c = (Char.ofNat 0x2029) || c = (Char.ofNat 0x202f) || c = (Char.ofNat 0x205f) ||
  c = (Char.ofNat 0x3000) || c = (Char.ofNat 0xfeff)

/-- JS LineTerminator class: the characters the regex `.` atom refuses. -/
def isLineTerm (c : Char) : Bool :=
  c = '\n' || c = '\r' || c = (Char.ofNat 0x2028) || c = (Char.ofNat 0x2029)

/-- JS `String.prototype.toLowerCase`, restricted to ASCII case mapping. -/
def toLowerJS (s : List Char) : List Char :=
  s.map Char.toLower

/-- JS `String.prototype.trim`: strip `\s` characters from both ends. -/
def trimJS (s : List Char) : List Char :=
  ((s.dropWhile isJsWhitespace).reverse.dropWhile isJsWhitespace).reverse

/-- JS `String.prototype.startsWith` on char lists. -/
def startsWithList : List Char → List Char → Bool
  | _, [] => true
  | [], _ :: _ => false
  | c :: cs, p :: ps => c == p && startsWithList cs ps

/-- JS `String.prototype.includes` (substring containment) on char lists. -/
def containsSub (hay pat : List Char) : Bool :=
  match hay with
  | [] => pat == []
  | _ :: t => startsWithList hay pat || containsSub t pat

/-- JS `content.split('\n')`: split on every newline, keeping empty segments. -/
def splitLines : List Char → List (List Char)
  | [] => [[]]
  | '\n' :: cs => [] :: splitLines cs
  | c :: cs =>
    match splitLines cs with
    | [] => [[c]]
    | l :: ls => (c :: l) :: ls

/-- JS `lines.join('\n')`. -/
def joinLines (ls : List (List Char)) : List Char :=
  List.intercalate ['\n'] ls

/-- A frontmatter value: boolean, string, or number (numbers as integers;
the code only compares against the literal `1`). -/
inductive FmVal where
  | b : Bool → FmVal
  | s : List Char → FmVal
  | n : Int → FmVal
deriving DecidableEq

/-- Obsidian `TFile` as the traversal sees it: identity and host-provided
content/metadata accessors, flattened into fields. -/
structure TFile where
  path : List Char
  name : List Char
  extension : List Char
  content : List Char
  frontmatter : Option (List (List Char × FmVal))
deriving DecidableEq

/-- The `ShareAsZipSettings` interface of src/main.ts. -/
structure ShareAsZipSettings where
  excludedFrontmatterKeys : List (List Char)
  excludedHeaders : List (List Char)
  excludedFolders : List (List Char)
  excludedFiles : List (List Char)
deriving DecidableEq

/-- `DEFAULT_SETTINGS` of src/main.ts: all four exclusion lists empty. -/
def DEFAULT_SETTINGS : ShareAsZipSettings :=
  { excludedFrontmatterKeys := []
    excludedHeaders := []
    excludedFolders := []
    excludedFiles := [] }

/-- First-match association lookup, modelling JS object property access
`frontmatter[key]` and the metadata cache's link-name resolution table. -/
def lookupStr {α : Type} : List Char → List (List Char × α) → Option α
  | _, [] => none
  | k, (k', v) :: rest => if k = k' then some v else lookupStr k rest

/-- The host vault: a finite corpus of documents together with the link-name
resolution table backing `metadataCache.getFirstLinkpathDest`; every
resolvable name points at a corpus document. -/
structure Vault where
  docs : List TFile
  linkIndex : List (List Char × TFile)
  index_docs : ∀ p ∈ linkIndex, p.2 ∈ docs

/-- `app.metadataCache.getFirstLinkpathDest(name, '')`. -/
def Vault.resolve (v : Vault) (n : List Char) : Option TFile :=
  lookupStr n v.linkIndex

/-- The binary extension list of `isBinaryFile` (src/main.ts:121-127). -/
def binaryExtensions : List (List Char) :=
  ["pdf".data, "jpg".data, "jpeg".data, "png".data, "gif".data, "bmp".data,
   "webp".data, "svg".data,
   "mp3".data, "wav".data, "ogg".data, "mp4".data, "avi".data, "mov".data,
   "mkv".data, "webm".data,
   "zip".data, "rar".data, "7z".data, "tar".data, "gz".data,
   "doc".data, "docx".data, "xls".data, "xlsx".data, "ppt".data, "pptx".data,
   "exe".data, "dll".data, "so".data, "dylib".data]

/-- `isBinaryFile` (src/main.ts:119-129). -/
def isBinaryFile (file : TFile) : Bool :=
  binaryExtensions.contains (toLowerJS file.extension)

/-- `isFileInExcludedFolder` (src/main.ts:172-185). -/
def isFileInExcludedFolder (s : ShareAsZipSettings) (file : TFile) : Bool :=
  if s.excludedFolders = [] then false
  else
    let filePath := toLowerJS file.path
    s.excludedFolders.any fun folder =>
      let folderPattern := trimJS (toLowerJS folder)
      if folderPattern = [] then false
      else
        startsWithList filePath (folderPattern ++ ['/']) ||
        containsSub filePath ('/' :: folderPattern ++ ['/']) ||
        filePath == folderPattern

/-- A single regex atom of the translated wildcard pattern: `.` matches any
character other than a line terminator, anything else matches literally. -/
def atomMatch (p c : Char) : Bool :=
  if p = '.' then !(isLineTerm c) else p == c

/-- The `pattern.replace` of src/main.ts:197: each `*` becomes the two regex
characters `.` `*`; all other characters are carried over unchanged. -/
def translateStar : List Char → List Char
  | [] => []
  | c :: rest => (if c = '*' then ['.', '*'] else [c]) ++ translateStar rest

/-- Parse the regex character list into (atom, starred) tokens: a `*`
makes the preceding atom repeatable. This is the grammar of every regex
`isFileNameExcluded` can build. -/
def tokenizeRegex : List Char → List (Char × Bool)
  | [] => []
  | [a] => [(a, false)]
  | a :: b :: ps =>
    if b = '*' then (a, true) :: tokenizeRegex ps
    else (a, false) :: tokenizeRegex (b :: ps)

/-- Fuel-indexed anchored matcher over the token list. -/
def tmatchF : Nat → List (Char × Bool) → List Char → Bool
  | 0, _, _ => false
  | _ + 1, [], [] => true
  | _ + 1, [], _ :: _ => false
  | fuel + 1, (a, true) :: ts, s =>
    tmatchF fuel ts s ||
      (match s with
       | [] => false
       | c :: cs => atomMatch a c && tmatchF fuel ((a, true) :: ts) cs)
  | _ + 1, (_, false) :: _, [] => false
  | fuel + 1, (a, false) :: ts, c :: cs => atomMatch a c && tmatchF fuel ts cs

/-- Anchored token matching: the fuel `ts.length + s.length + 1` always
suffices, since every recursive call shrinks the sum (made precise by
`tmatchF_fuel`). -/
def tmatch (ts : List (Char × Bool)) (s : List Char) : Bool :=
  tmatchF (ts.length + s.length + 1) ts s

/-- `new RegExp('^' + regexPattern + '$').test(fileName)` for the regexes
the code builds. -/
def rmatch (p s : List Char) : Bool :=
  tmatch (tokenizeRegex p) s

/-- The per-pattern body of `isFileNameExcluded` (src/main.ts:191-203);
`fileName` arrives already lowercased, as in the source. -/
def fileNameMatchesPattern (fileName excludedFile : List Char) : Bool :=
  let pattern := trimJS (toLowerJS excludedFile)
  if pattern = [] then false
  else if pattern.contains '*' then rmatch (translateStar pattern) fileName
  else fileName == pattern

/-- `isFileNameExcluded` (src/main.ts:187-204). -/
def isFileNameExcluded (s : ShareAsZipSettings) (file : TFile) : Bool :=
  if s.excludedFiles = [] then false
  else
    let fileName := toLowerJS file.name
    s.excludedFiles.any fun excludedFile => fileNameMatchesPattern fileName excludedFile

/-- The truthiness test of `isFrontmatterExcluded` (src/main.ts:216):
`value === true || value === 'true' || value === 1 || value === '1'`. -/
def isTruthyFmOpt : Option FmVal → Bool
  | some (FmVal.b b) => b
  | some (FmVal.s str) => str == "true".data || str == "1".data
  | some (FmVal.n n) => n == 1
  | none => false

/-- `isFrontmatterExcluded` (src/main.ts:206-218). -/
def isFrontmatterExcluded (s : ShareAsZipSettings) (file : TFile) : Bool :=
  if s.excludedFrontmatterKeys = [] then false
  else
    match file.frontmatter with
    | none => false
    | some fm => s.excludedFrontmatterKeys.any fun key => isTruthyFmOpt (lookupStr key fm)

/-- `shouldExcludeFile` (src/main.ts:153-170). -/
def shouldExcludeFile (s : ShareAsZipSettings) (file : TFile) : Bool :=
  if isFileInExcludedFolder s file then true
  else if isFileNameExcluded s file then true
  else if isFrontmatterExcluded s file then true
  else false

/-- The capture of `\s+(.+)$` matched against the line remainder after the
hashes, with JS backtracking: the whitespace run is taken greedily, and if
nothing is left for `.+` it gives back one character, which `.` accepts
only when it is not a line terminator. -/
def headerTextOf (rest : List Char) : Option (List Char) :=
  match rest with
  | [] => none
  | c :: _ =>
    if isJsWhitespace c then
      let r := rest.dropWhile isJsWhitespace
      if r = [] then
        match rest.reverse with
        | [] => none
        | last :: tl => if tl ≠ [] && !(isLineTerm last) then some [last] else none
      else if r.all (fun d => !(isLineTerm d)) then some r else none
    else none

/-- `line.match(/^(#{1,6})\s+(.+)$/)` (src/main.ts:229): returns the hash
count and the raw captured heading text. The hash run must have length 1-6
exactly, since a seventh hash can satisfy neither `#` nor `\s`. -/
def headerMatchLine (line : List Char) : Option (Nat × List Char) :=
  let k := (line.takeWhile (fun c => c = '#')).length
  if 1 ≤ k ∧ k ≤ 6 then
    match headerTextOf (line.dropWhile (fun c => c = '#')) with
    | some t => some (k, t)
    | none => none
  else none

/-- The excluded-header test of src/main.ts:236-238 on an (untrimmed)
captured heading text. -/
def headerTextExcluded (s : ShareAsZipSettings) (t : List Char) : Bool :=
  s.excludedHeaders.any fun excludedHeader =>
    containsSub (toLowerJS (trimJS t)) (toLowerJS excludedHeader)

/-- The mutable loop state of `filterContentByHeaders`. -/
structure FilterState where
  skipSection : Bool
  currentHeaderLevel : Nat
deriving DecidableEq

/-- One iteration of the `filterContentByHeaders` loop body
(src/main.ts:228-253): the next state, and the line if it is kept. -/
def filterStep (s : ShareAsZipSettings) (st : FilterState) (line : List Char) :
    FilterState × Option (List Char) :=
  match headerMatchLine line with
  | some (level, text0) =>
    if headerTextExcluded s text0 then (⟨true, level⟩, none)
    else
      let st' := if st.skipSection ∧ level ≤ st.currentHeaderLevel
                 then ⟨false, st.currentHeaderLevel⟩ else st
      if st'.skipSection then (st', none) else (st', some line)
  | none => if st.skipSection then (st, none) else (st, some line)

/-- `filterContentByHeaders` (src/main.ts:220-256). -/
def filterContentByHeaders (s : ShareAsZipSettings) (content : List Char) : List Char :=
  if s.excludedHeaders = [] then content
  else
    let out := (splitLines content).foldl
      (fun (acc : FilterState × List (List Char)) line =>
        let r := filterStep s acc.1 line
        (r.1, match r.2 with | some l => acc.2 ++ [l] | none => acc.2))
      (⟨false, 0⟩, [])
    joinLines out.2

/-- Attempt to match `\[\[([^|\]]+)(?:\|[^\]]+)?\]\]` at the head of the
text; on success return the capture and the remainder after the match.
The two negated-class runs are forced (no useful backtracking exists), so
the greedy scan below is exactly the regex's behaviour. -/
def matchLinkAt (cs : List Char) : Option (List Char × List Char) :=
  match cs with
  | '[' :: '[' :: rest =>
    let t := rest.takeWhile fun c => c ≠ '|' ∧ c ≠ ']'
    let r := rest.dropWhile fun c => c ≠ '|' ∧ c ≠ ']'
    if t = [] then none
    else
      match r with
      | ']' :: ']' :: rest2 => some (t, rest2)
      | '|' :: r2 =>
        let d := r2.takeWhile fun c => c ≠ ']'
        let r3 := r2.dropWhile fun c => c ≠ ']'
        if d = [] then none
        else
          match r3 with
          | ']' :: ']' :: rest2 => some (t, rest2)
          | _ => none
      | _ => none
  | _ => none

/-- The global `linkPattern.exec` loop: find the leftmost match, emit its
capture, continue after the match end. Fuel `cs.length` always suffices
since every step consumes at least one character. -/
def scanLinksAux : Nat → List Char → List (List Char)
  | 0, _ => []
  | _ + 1, [] => []
  | n + 1, c :: cs =>
    match matchLinkAt (c :: cs) with
    | some (t, rest) => t :: scanLinksAux n rest
    | none => scanLinksAux n cs

/-- All link targets captured by the scan of src/main.ts:260-263. -/
def scanLinks (cs : List Char) : List (List Char) :=
  scanLinksAux cs.length cs

/-- `extractLinks` (src/main.ts:258-274): resolve each captured target,
silently dropping unresolvable ones. -/
def extractLinks (v : Vault) (content : List Char) : List TFile :=
  (scanLinks content).filterMap fun nm => v.resolve nm

/-- `collectLinkedNotes` (src/main.ts:131-151), fuel-indexed: the visited
set is a duplicate-free insertion-ordered list. When the fuel runs out the
accumulated set is returned unchanged; `collect` below always supplies
enough fuel (made precise by `collectFuel_stable_all`). -/
def collectFuel (v : Vault) (s : ShareAsZipSettings) :
    Nat → TFile → List TFile → List TFile
  | 0, _, notesSet => notesSet
  | fuel + 1, file, notesSet =>
    if file ∈ notesSet then notesSet
    else if shouldExcludeFile s file then notesSet
    else
      let notesSet1 := notesSet ++ [file]
      if isBinaryFile file then notesSet1
      else
        (extractLinks v (filterContentByHeaders s file.content)).foldl
          (fun acc linkedFile => collectFuel v s fuel linkedFile acc) notesSet1

/-- The whole-traversal entry point: `collectLinkedNotes(activeFile, new Set())`. -/
def collect (v : Vault) (s : ShareAsZipSettings) (file : TFile) : List TFile :=
  collectFuel v s (v.docs.length + 2) file []

/-- `collectLinkedNotes` of the plain variant (src/unnamed/part_000:51-64):
no exclusion checks and no header filtering, otherwise identical. -/
def collectPlainFuel (v : Vault) : Nat → TFile → List TFile → List TFile
  | 0, _, notesSet => notesSet
  | fuel + 1, file, notesSet =>
    if file ∈ notesSet then notesSet
    else
      let notesSet1 := notesSet ++ [file]
      if isBinaryFile file then notesSet1
      else
        (extractLinks v file.content).foldl
          (fun acc linkedFile => collectPlainFuel v fuel linkedFile acc) notesSet1

/-- Whole-traversal entry point of the plain variant. -/
def collectPlain (v : Vault) (file : TFile) : List TFile :=
  collectPlainFuel v (v.docs.length + 2) file []

/-! ### Concrete fixtures used by example claims and witnesses -/

/-- Document A of the two-document cycle: links to B. -/
def fileA : TFile :=
  ⟨"A.md".data, "A.md".data, "md".data, "[[B]]".data, none⟩

/-- Document B of the two-document cycle: links back to A. -/
def fileB : TFile :=
  ⟨"B.md".data, "B.md".data, "md".data, "[[A]]".data, none⟩

/-- The cyclic corpus A→B→A. -/
def cycleVault : Vault :=
  ⟨[fileA, fileB], [("A".data, fileA), ("B".data, fileB)], by decide⟩

/-- Document A of the chain A→B→C. -/
def chainA : TFile :=
  ⟨"A5.md".data, "A5.md".data, "md".data, "[[B5]]".data, none⟩

/-- Document B of the chain, excluded by filename below. -/
def chainB : TFile :=
  ⟨"B5.md".data, "B5.md".data, "md".data, "[[C5]]".data, none⟩

/-- Document C of the chain; matches no exclusion rule. -/
def chainC : TFile :=
  ⟨"C5.md".data, "C5.md".data, "md".data, "".data, none⟩

/-- The chain corpus A→B→C. -/
def chainVault : Vault :=
  ⟨[chainA, chainB, chainC],
   [("A5".data, chainA), ("B5".data, chainB), ("C5".data, chainC)], by decide⟩

/-- Settings whose only rule excludes the filename `B5.md`. -/
def chainSettings : ShareAsZipSettings :=
  { excludedFrontmatterKeys := [], excludedHeaders := [],
    excludedFolders := [], excludedFiles := ["B5.md".data] }

/-- A binary (png) document whose raw bytes contain link-like text. -/
def binDoc : TFile :=
  ⟨"img.png".data, "img.png".data, "png".data, "[[A]]".data, none⟩

/-- Corpus holding the binary document and the target its bytes mention. -/
def binVault : Vault :=
  ⟨[binDoc, fileA], [("A".data, fileA), ("img".data, binDoc)], by decide⟩

/-- Target documents of the header-scoping example. -/
def fileX : TFile :=
  ⟨"X.md".data, "X.md".data, "md".data, "".data, none⟩

/-- Target Y, referenced only inside the excluded section. -/
def fileY : TFile :=
  ⟨"Y.md".data, "Y.md".data, "md".data, "".data, none⟩

/-- Target Z, referenced after the excluded section ends. -/
def fileZ : TFile :=
  ⟨"Z.md".data, "Z.md".data, "md".data, "".data, none⟩

/-- Corpus resolving X, Y and Z for the header-scoping example. -/
def headerVault : Vault :=
  ⟨[fileX, fileY, fileZ],
   [("X".data, fileX), ("Y".data, fileY), ("Z".data, fileZ)], by decide⟩

/-- Settings with the single excluded-header substring `Excluded`. -/
def headerSettings : ShareAsZipSettings :=
  { excludedFrontmatterKeys := [], excludedHeaders := ["Excluded".data],
    excludedFolders := [], excludedFiles := [] }

/-- The six-line content of the header-scoping example. -/
def headerContent : List Char :=
  "# Keep\n[[X]]\n## Excluded\n[[Y]]\n## Keep2\n[[Z]]".data

/-- Settings with the single excluded-header substring `X`, used by the
header-scope counterexample. -/
def hxSettings : ShareAsZipSettings :=
  { excludedFrontmatterKeys := [], excludedHeaders := ["X".data],
    excludedFolders := [], excludedFiles := [] }

/-- Settings whose only rule excludes the folder `Templates`. -/
def templateSettings : ShareAsZipSettings :=
  { excludedFrontmatterKeys := [], excludedHeaders := [],
    excludedFolders := ["Templates".data], excludedFiles := [] }

/-- A file directly inside the excluded folder. -/
def tplA : TFile :=
  ⟨"Templates/a.md".data, "a.md".data, "md".data, [], none⟩

/-- A file inside a nested occurrence of the excluded folder. -/
def tplB : TFile :=
  ⟨"Notes/Templates/b.md".data, "b.md".data, "md".data, [], none⟩

/-- A file whose folder merely ends with the excluded folder's name. -/
def tplC : TFile :=
  ⟨"MyTemplates/c.md".data, "c.md".data, "md".data, [], none⟩

/-! ### String-matching lemmas -/

theorem startsWithList_iff : ∀ (s p : List Char), startsWithList s p = true ↔ p <+: s
  | _, [] => by simp [startsWithList]
  | [], _ :: _ => by simp [startsWithList]
  | c :: cs, p :: ps => by
    simp only [startsWithList, Bool.and_eq_true, beq_iff_eq,
      startsWithList_iff cs ps, List.cons_prefix_cons]
    exact and_congr_left fun _ => eq_comm

theorem containsSub_iff : ∀ (hay pat : List Char), containsSub hay pat = true ↔ pat <:+: hay
  | [], pat => by
    cases pat <;> simp [containsSub]
  | h :: t, pat => by
    simp only [containsSub, Bool.or_eq_true, startsWithList_iff, containsSub_iff t pat,
      List.infix_cons_iff]

/-- The per-folder body of `isFileInExcludedFolder`, characterised. -/
theorem folderPatternBody (path pat : List Char) :
    (if pat = [] then false
     else
       startsWithList path (pat ++ ['/']) ||
       containsSub path ('/' :: pat ++ ['/']) ||
       path == pat) = true ↔
      pat ≠ [] ∧
        (pat ++ ['/'] <+: path ∨ '/' :: pat ++ ['/'] <:+: path ∨ path = pat) := by
  split
  · simp_all
  · simp_all [startsWithList_iff, containsSub_iff, or_assoc]

/-- C9: folder exclusion triggers exactly when the lowercased path starts
with `p/`, contains `/p/`, or equals `p`, for some configured folder whose
trimmed-lowercased pattern `p` is non-empty; `Templates` excludes
`Templates/a.md` and `Notes/Templates/b.md` but not `MyTemplates/c.md`. -/
theorem folder_exclusion_spec :
    (∀ (s : ShareAsZipSettings) (f : TFile),
      isFileInExcludedFolder s f = true ↔
        ∃ folder ∈ s.excludedFolders,
          trimJS (toLowerJS folder) ≠ [] ∧
          (trimJS (toLowerJS folder) ++ ['/'] <+: toLowerJS f.path ∨
           '/' :: trimJS (toLowerJS folder) ++ ['/'] <:+: toLowerJS f.path ∨
           toLowerJS f.path = trimJS (toLowerJS folder))) ∧
    isFileInExcludedFolder templateSettings tplA = true ∧
    isFileInExcludedFolder templateSettings tplB = true ∧
    isFileInExcludedFolder templateSettings tplC = false := by
  refine ⟨fun s f => ?_, by decide, by decide, by decide⟩
  rw [isFileInExcludedFolder]
  split
  · simp_all
  · simp only [List.any_eq_true, folderPatternBody]

/-! ### Traversal engine lemmas -/

/-- One-step unfolding of the traversal body at positive fuel. -/
theorem collectFuel_succ (v : Vault) (s : ShareAsZipSettings) (fuel : Nat)
    (file : TFile) (ns : List TFile) :
    collectFuel v s (fuel + 1) file ns =
      if file ∈ ns then ns
      else if shouldExcludeFile s file then ns
      else if isBinaryFile file then ns ++ [file]
      else
        (extractLinks v (filterContentByHeaders s file.content)).foldl
          (fun acc linkedFile => collectFuel v s fuel linkedFile acc) (ns ++ [file]) := rfl

theorem lookupStr_mem {α : Type} :
    ∀ (k : List Char) (l : List (List Char × α)) (a : α),
      lookupStr k l = some a → ∃ k', (k', a) ∈ l
  | _, [], _ => by simp [lookupStr]
  | k, (k', v) :: rest, a => by
    rw [lookupStr]
    split
    · intro h
      exact ⟨k', by simp [Option.some_inj.mp h]⟩
    · intro h
      obtain ⟨k'', hm⟩ := lookupStr_mem k rest a h
      exact ⟨k'', List.mem_cons_of_mem _ hm⟩

/-- Every document the link extractor yields belongs to the corpus. -/
theorem extractLinks_mem (v : Vault) (c : List Char) :
    ∀ g ∈ extractLinks v c, g ∈ v.docs := by
  intro g hg
  rw [extractLinks] at hg
  obtain ⟨nm, _, hres⟩ := List.mem_filterMap.mp hg
  obtain ⟨k', hk⟩ := lookupStr_mem nm v.linkIndex g hres
  exact v.index_docs (k', g) hk

theorem foldl_pre {β : Type} (g : List TFile → β → List TFile)
    (h : ∀ a x, a <+: g a x) :
    ∀ (L : List β) (a : List TFile), a <+: L.foldl g a := by
  intro L
  induction L with
  | nil => intro a; exact List.prefix_refl a
  | cons x L ih =>
    intro a
    rw [List.foldl_cons]
    exact (h a x).trans (ih (g a x))

/-- The visited set only grows, as a prefix, during traversal. -/
theorem collectFuel_pre (v : Vault) (s : ShareAsZipSettings) :
    ∀ (fuel : Nat) (f : TFile) (ns : List TFile), ns <+: collectFuel v s fuel f ns := by
  intro fuel
  induction fuel with
  | zero => intro f ns; exact List.prefix_refl ns
  | succ n ih =>
    intro f ns
    rw [collectFuel_succ]
    by_cases h1 : f ∈ ns
    · simp [h1]
    by_cases h2 : shouldExcludeFile s f = true
    · simp [h1, h2]
    by_cases h3 : isBinaryFile f = true
    · simp only [if_neg h1, if_neg h2, if_pos h3]
      exact List.prefix_append ns [f]
    · simp only [if_neg h1, if_neg h2, if_neg h3]
      exact (List.prefix_append ns [f]).trans
        (foldl_pre _ (fun a x => ih x a) _ (ns ++ [f]))

theorem mem_foldl_inv {β : Type} (g : List TFile → β → List TFile) (P : TFile → Prop) :
    ∀ (L : List β), (∀ a (x : β) y, x ∈ L → y ∈ g a x → y ∈ a ∨ P y) →
      ∀ (a : List TFile) (y : TFile), y ∈ L.foldl g a → y ∈ a ∨ P y := by
  intro L
  induction L with
  | nil => intro _ a y hy; exact Or.inl (by simpa using hy)
  | cons x L ih =>
    intro hL a y hy
    rw [List.foldl_cons] at hy
    rcases ih (fun a' x' y' hx' => hL a' x' y' (List.mem_cons_of_mem x hx')) (g a x) y hy with
      hmem | hp
    · exact hL a x y (List.mem_cons_self x L) hmem
    · exact Or.inr hp

/-- Every member of the traversal output was either already visited, or is
a non-excluded document drawn from the root or the corpus. -/
theorem mem_collectFuel (v : Vault) (s : ShareAsZipSettings) :
    ∀ (fuel : Nat) (f : TFile) (ns : List TFile) (g : TFile),
      g ∈ collectFuel v s fuel f ns →
      g ∈ ns ∨ (shouldExcludeFile s g = false ∧ (g = f ∨ g ∈ v.docs)) := by
  intro fuel
  induction fuel with
  | zero => intro f ns g hg; exact Or.inl hg
  | succ n ih =>
    intro f ns g hg
    rw [collectFuel_succ] at hg
    by_cases h1 : f ∈ ns
    · rw [if_pos h1] at hg; exact Or.inl hg
    by_cases h2 : shouldExcludeFile s f = true
    · rw [if_neg h1, if_pos h2] at hg; exact Or.inl hg
    by_cases h3 : isBinaryFile f = true
    · rw [if_neg h1, if_neg h2, if_pos h3] at hg
      rcases List.mem_append.mp hg with hn | hf
      · exact Or.inl hn
      · refine Or.inr ⟨?_, Or.inl (List.mem_singleton.mp hf)⟩
        rw [List.mem_singleton.mp hf]
        exact Bool.not_eq_true _ ▸ (by simpa using h2)
    · rw [if_neg h1, if_neg h2, if_neg h3] at hg
      have hstep : ∀ a (x : TFile) y,
          x ∈ extractLinks v (filterContentByHeaders s f.content) →
          y ∈ collectFuel v s n x a →
          y ∈ a ∨ (shouldExcludeFile s y = false ∧ (y = f ∨ y ∈ v.docs)) := by
        intro a x y hx hy
        rcases ih x a y hy with hmem | ⟨hex, hor⟩
        · exact Or.inl hmem
        · refine Or.inr ⟨hex, Or.inr ?_⟩
          rcases hor with rfl | hd
          · exact extractLinks_mem v _ y hx
          · exact hd
      rcases mem_foldl_inv _ _ _ hstep (ns ++ [f]) g hg with hns | hp
      · rcases List.mem_append.mp hns with hn | hf
        · exact Or.inl hn
        · refine Or.inr ⟨?_, Or.inl (List.mem_singleton.mp hf)⟩
          rw [List.mem_singleton.mp hf]
          simpa using h2
      · exact Or.inr hp

/-- A step on an excluded document leaves the visited set unchanged. -/
theorem collectFuel_excluded (v : Vault) (s : ShareAsZipSettings) :
    ∀ (fuel : Nat) (f : TFile) (ns : List TFile),
      shouldExcludeFile s f = true → collectFuel v s fuel f ns = ns := by
  intro fuel f ns hexcl
  cases fuel with
  | zero => rfl
  | succ n =>
    rw [collectFuel_succ]
    simp [hexcl]

/-- C1: an excluded document causes `collectLinkedNotes` to return with the
visited set unchanged — it is never added and its content is never scanned
for links — and consequently no excluded document ever occurs in the final
export set of a traversal. -/
theorem excluded_never_added (v : Vault) (s : ShareAsZipSettings) :
    (∀ (fuel : Nat) (f : TFile) (ns : List TFile),
       shouldExcludeFile s f = true → collectFuel v s fuel f ns = ns) ∧
    (∀ (f g : TFile), g ∈ collect v s f → shouldExcludeFile s g = false) := by
  constructor
  · exact collectFuel_excluded v s
  · intro f g hg
    rcases mem_collectFuel v s (v.docs.length + 2) f [] g hg with hnil | ⟨hex, _⟩
    · exact absurd hnil (List.not_mem_nil g)
    · exact hex

/-! ### Termination: sufficient fuel makes the traversal result stable -/

/-- Number of corpus documents not yet visited: the termination measure. -/
def remaining (v : Vault) (ns : List TFile) : Nat :=
  (v.docs.filter fun d => decide (d ∉ ns)).length

theorem remaining_le (v : Vault) (ns : List TFile) : remaining v ns ≤ v.docs.length :=
  List.length_filter_le _ _

theorem remaining_mono (v : Vault) {ns ms : List TFile} (h : ns ⊆ ms) :
    remaining v ms ≤ remaining v ns := by
  apply List.Sublist.length_le
  apply List.monotone_filter_right
  intro a ha
  simp only [decide_eq_true_eq] at *
  exact fun hmem => ha (h hmem)

theorem remaining_lt (v : Vault) {ns : List TFile} {f : TFile}
    (hd : f ∈ v.docs) (hn : f ∉ ns) :
    remaining v (ns ++ [f]) < remaining v ns := by
  have hsub : List.Sublist (v.docs.filter fun d => decide (d ∉ ns ++ [f]))
      (v.docs.filter fun d => decide (d ∉ ns)) := by
    apply List.monotone_filter_right
    intro a ha
    simp only [decide_eq_true_eq, List.mem_append] at *
    exact fun hmem => ha (Or.inl hmem)
  apply Nat.lt_of_le_of_ne hsub.length_le
  intro hlen
  have heq := hsub.eq_of_length hlen
  have hfmem : f ∈ v.docs.filter (fun d => decide (d ∉ ns)) := by
    simp [List.mem_filter, hd, hn]
  rw [← heq] at hfmem
  simp [List.mem_filter] at hfmem

/-- Raising the per-call fuel by one does not change a fold over children,
provided every child is a corpus document and the one-step stability
hypothesis holds below the current measure. -/
theorem foldl_stable (v : Vault) (s : ShareAsZipSettings) (fuel : Nat)
    (ih : ∀ (f : TFile) (ns : List TFile),
      remaining v ns < fuel → f ∈ v.docs ∨ f ∈ ns →
      collectFuel v s (fuel + 1) f ns = collectFuel v s fuel f ns) :
    ∀ (L : List TFile) (ns : List TFile),
      (∀ g ∈ L, g ∈ v.docs) → remaining v ns < fuel →
      L.foldl (fun acc lf => collectFuel v s (fuel + 1) lf acc) ns =
        L.foldl (fun acc lf => collectFuel v s fuel lf acc) ns := by
  intro L
  induction L with
  | nil => intro ns _ _; rfl
  | cons x L ihL =>
    intro ns hL hrem
    rw [List.foldl_cons, List.foldl_cons,
      ih x ns hrem (Or.inl (hL x (List.mem_cons_self x L)))]
    exact ihL (collectFuel v s fuel x ns)
      (fun g hg => hL g (List.mem_cons_of_mem x hg))
      (lt_of_le_of_lt (remaining_mono v (collectFuel_pre v s fuel x ns).subset) hrem)

/-- One extra unit of fuel beyond the unvisited-document count changes
nothing, for a current document drawn from the corpus or already visited. -/
theorem collect_stable (v : Vault) (s : ShareAsZipSettings) :
    ∀ (fuel : Nat) (f : TFile) (ns : List TFile),
      remaining v ns < fuel → f ∈ v.docs ∨ f ∈ ns →
      collectFuel v s (fuel + 1) f ns = collectFuel v s fuel f ns := by
  intro fuel
  induction fuel with
  | zero => intro f ns h _; omega
  | succ n ih =>
    intro f ns hrem hmem
    rw [collectFuel_succ, collectFuel_succ]
    by_cases h1 : f ∈ ns
    · simp [h1]
    by_cases h2 : shouldExcludeFile s f = true
    · simp [h1, h2]
    by_cases h3 : isBinaryFile f = true
    · simp [h1, h2, h3]
    · simp only [if_neg h1, if_neg h2, if_neg h3]
      have hf : f ∈ v.docs := hmem.resolve_right h1
      exact foldl_stable v s n ih _ (ns ++ [f])
        (fun g hg => extractLinks_mem v _ g hg)
        (lt_of_lt_of_le (remaining_lt v hf h1) (Nat.lt_succ_iff.mp hrem))

/-- Fuel stability for an arbitrary root (possibly outside the corpus):
two spare units of fuel over the measure suffice. -/
theorem collect_stable_any (v : Vault) (s : ShareAsZipSettings) :
    ∀ (fuel : Nat) (f : TFile) (ns : List TFile),
      remaining v ns + 1 < fuel →
      collectFuel v s (fuel + 1) f ns = collectFuel v s fuel f ns := by
  intro fuel f ns h
  obtain ⟨m, rfl⟩ : ∃ m, fuel = m + 1 := ⟨fuel - 1, by omega⟩
  rw [collectFuel_succ, collectFuel_succ]
  by_cases h1 : f ∈ ns
  · simp [h1]
  by_cases h2 : shouldExcludeFile s f = true
  · simp [h1, h2]
  by_cases h3 : isBinaryFile f = true
  · simp [h1, h2, h3]
  · simp only [if_neg h1, if_neg h2, if_neg h3]
    apply foldl_stable v s m (collect_stable v s m) _ (ns ++ [f])
      (fun g hg => extractLinks_mem v _ g hg)
    calc remaining v (ns ++ [f]) ≤ remaining v ns :=
          remaining_mono v (List.subset_append_left ns [f])
      _ < m := by omega

/-- Any fuel at least `|docs| + 2` yields the same traversal result as
`collect`: the recursion has stabilised, i.e. it terminates on every finite
corpus, cyclic reference graphs included. -/
theorem collectFuel_stable_all (v : Vault) (s : ShareAsZipSettings) (f : TFile) :
    ∀ (k : Nat), collectFuel v s (v.docs.length + 2 + k) f [] = collect v s f := by
  intro k
  induction k with
  | zero => rfl
  | succ n ih =>
    have hle : remaining v [] ≤ v.docs.length := remaining_le v []
    calc collectFuel v s (v.docs.length + 2 + (n + 1)) f []
        = collectFuel v s ((v.docs.length + 2 + n) + 1) f [] := by ring_nf
      _ = collectFuel v s (v.docs.length + 2 + n) f [] :=
          collect_stable_any v s _ f [] (by omega)
      _ = collect v s f := ih

/-- C2: for every finite corpus — cyclic reference graphs included — the
traversal's result is independent of any fuel beyond `|docs| + 2`, i.e.
`collect` terminates with a stable visited set; and on the two-document
cycle A→B→A, `collect(A)` yields exactly the set {A, B}. -/
theorem collect_terminates_on_cycles :
    (∀ (v : Vault) (s : ShareAsZipSettings) (f : TFile) (k : Nat),
        collectFuel v s (v.docs.length + 2 + k) f [] = collect v s f) ∧
    collect cycleVault DEFAULT_SETTINGS fileA = [fileA, fileB] :=
  ⟨fun v s f k => collectFuel_stable_all v s f k, by decide⟩

/-- Witness for C1 at a concrete excluded document: the traversal step on
the filename-excluded `chainB` leaves the visited set empty. -/
theorem excluded_never_added_witness :
    collectFuel chainVault chainSettings 5 chainB [] = [] :=
  (excluded_never_added chainVault chainSettings).1 5 chainB [] (by decide)

/-- C5: when the sole link of a non-excluded, non-binary root A resolves to
an excluded document B, `collect(A)` yields exactly {A}: exclusion of B
blocks descent, so no document linked only through B is ever visited. -/
theorem exclusion_blocks_descent (v : Vault) (s : ShareAsZipSettings) (A B : TFile)
    (hA : shouldExcludeFile s A = false) (hbin : isBinaryFile A = false)
    (hlinks : extractLinks v (filterContentByHeaders s A.content) = [B])
    (hB : shouldExcludeFile s B = true) :
    collect v s A = [A] := by
  rw [collect, show v.docs.length + 2 = (v.docs.length + 1) + 1 from rfl, collectFuel_succ]
  rw [if_neg (List.not_mem_nil A), if_neg (by simp [hA]), if_neg (by simp [hbin]), hlinks]
  simp only [List.foldl_cons, List.foldl_nil, List.nil_append]
  exact collectFuel_excluded v s _ B [A] hB

/-- Witness for C5 on the concrete chain A→B→C with B excluded by filename:
the traversal from A yields exactly {A}; C is in the corpus and matches no
rule, yet is never visited. -/
theorem exclusion_blocks_descent_witness :
    collect chainVault chainSettings chainA = [chainA] :=
  exclusion_blocks_descent chainVault chainSettings chainA chainB
    (by decide) (by decide) (by decide) (by decide)

/-- C6: a binary document's content is never scanned for links — at any
traversal point it contributes itself (when new and not excluded) and no
children, whatever its raw content; a traversal rooted at a non-excluded
binary document yields exactly that singleton. -/
theorem binary_stop (v : Vault) (s : ShareAsZipSettings) (f : TFile)
    (hbin : isBinaryFile f = true) :
    (∀ (fuel : Nat) (ns : List TFile),
       collectFuel v s (fuel + 1) f ns =
         if f ∈ ns then ns
         else if shouldExcludeFile s f = true then ns
         else ns ++ [f]) ∧
    (shouldExcludeFile s f = false → collect v s f = [f]) := by
  constructor
  · intro fuel ns
    rw [collectFuel_succ]
    by_cases h1 : f ∈ ns
    · simp [h1]
    by_cases h2 : shouldExcludeFile s f = true
    · simp [h1, h2]
    · simp [h1, h2, hbin]
  · intro hex
    rw [collect, show v.docs.length + 2 = (v.docs.length + 1) + 1 from rfl, collectFuel_succ]
    simp [hex, hbin]

/-- Witness for C6: the png document whose bytes read `[[A]]`, with `A`
resolvable in the corpus, still yields the singleton {binDoc}. -/
theorem binary_stop_witness :
    collect binVault DEFAULT_SETTINGS binDoc = [binDoc] :=
  (binary_stop binVault DEFAULT_SETTINGS binDoc (by decide)).2 (by decide)

/-- C7: on the six-line example with excluded-header substring `Excluded`,
applying the Header-Scope Filter and then the Link Extractor yields exactly
the targets X and Z; the link to Y inside the excluded level-2 scope
(which ends at the next heading of level ≤ 2) is dropped. -/
theorem header_scoping_example :
    extractLinks headerVault (filterContentByHeaders headerSettings headerContent) =
      [fileX, fileZ] := by decide

/-- One-step unfolding of the plain variant's traversal at positive fuel. -/
theorem collectPlainFuel_succ (v : Vault) (fuel : Nat) (file : TFile) (ns : List TFile) :
    collectPlainFuel v (fuel + 1) file ns =
      if file ∈ ns then ns
      else if isBinaryFile file then ns ++ [file]
      else
        (extractLinks v file.content).foldl
          (fun acc linkedFile => collectPlainFuel v fuel linkedFile acc) (ns ++ [file]) := rfl

/-- C10: with the default (all-empty) exclusion configuration, the full
traversal — exclusion checks and header filtering included — computes the
same visited set as the plain variant with no exclusion machinery at all,
for every corpus and every root. -/
theorem default_settings_refinement :
    ∀ (v : Vault) (f : TFile), collect v DEFAULT_SETTINGS f = collectPlain v f := by
  have hfuel : ∀ (v : Vault) (fuel : Nat) (f : TFile) (ns : List TFile),
      collectFuel v DEFAULT_SETTINGS fuel f ns = collectPlainFuel v fuel f ns := by
    intro v fuel
    induction fuel with
    | zero => intro f ns; rfl
    | succ n ih =>
      intro f ns
      rw [collectFuel_succ, collectPlainFuel_succ]
      have hex : shouldExcludeFile DEFAULT_SETTINGS f = false := rfl
      have hfc : filterContentByHeaders DEFAULT_SETTINGS f.content = f.content := rfl
      rw [hex, hfc]
      by_cases h1 : f ∈ ns
      · simp [h1]
      · simp only [if_neg h1, Bool.false_eq_true, if_false]
        by_cases h3 : isBinaryFile f = true
        · simp [h3]
        · simp only [if_neg h3]
          have hF : (fun (acc : List TFile) lf => collectFuel v DEFAULT_SETTINGS n lf acc) =
              fun acc lf => collectPlainFuel v n lf acc := by
            funext a l
            exact ih l a
          rw [hF]
  intro v f
  rw [collect, collectPlain]
  exact hfuel v _ f []

/-! ### Header-scope filter: skip-state behaviour -/

/-- C3 counterexample: in skipping state with remembered level 2, the
deeper level-4 heading `#### X` (matching the excluded substring `X`) IS
evaluated for exclusion and re-triggers the skip, changing the remembered
level to 4 — refuting the claim that a deeper heading inside a skipped
section is consumed without exclusion evaluation and can never re-trigger
a skip or change the remembered triggering level. -/
theorem headerScope_counterexample :
    headerMatchLine "#### X".data = some (4, "X".data) ∧
    (filterStep hxSettings ⟨true, 2⟩ "#### X".data).1 ≠ FilterState.mk true 2 ∧
    (filterStep hxSettings ⟨true, 2⟩ "#### X".data).1 = FilterState.mk true 4 := by
  decide

/-- C3 (amended): while skipping with remembered level L, heading lines are
still evaluated for exclusion matching. A deeper heading (level > L) that
matches an excluded substring re-triggers the skip and updates the
remembered level to its own level, a deeper non-matching heading is
consumed with the state unchanged, the skip ends exactly at a non-matching
heading of level ≤ L, and non-heading lines are consumed unchanged. -/
theorem headerScope_skip_behavior (s : ShareAsZipSettings) (st : FilterState)
    (line : List Char) (hskip : st.skipSection = true) :
    (∀ (k : Nat) (t : List Char), headerMatchLine line = some (k, t) →
       st.currentHeaderLevel < k →
       filterStep s st line =
         ((if headerTextExcluded s t then FilterState.mk true k else st), none)) ∧
    (∀ (k : Nat) (t : List Char), headerMatchLine line = some (k, t) →
       k ≤ st.currentHeaderLevel → headerTextExcluded s t = false →
       filterStep s st line = (⟨false, st.currentHeaderLevel⟩, some line)) ∧
    (headerMatchLine line = none → filterStep s st line = (st, none)) := by
  refine ⟨?_, ?_, ?_⟩
  · intro k t hm hlt
    by_cases hex : headerTextExcluded s t = true
    · simp [filterStep, hm, hex]
    · simp only [Bool.not_eq_true] at hex
      simp [filterStep, hm, hex, hskip, Nat.not_le.mpr hlt]
  · intro k t hm hle hex
    simp [filterStep, hm, hex, hskip, hle]
  · intro hm
    simp [filterStep, hm, hskip]

/-- Witness for the amended C3 at a concrete deeper non-matching heading:
the line is consumed and the state is unchanged. -/
theorem headerScope_skip_behavior_witness :
    filterStep hxSettings ⟨true, 2⟩ "#### Z".data = (⟨true, 2⟩, none) := by
  have h := (headerScope_skip_behavior hxSettings ⟨true, 2⟩ "#### Z".data rfl).1
    4 "Z".data (by decide) (by decide)
  rw [h]
  decide

/-! ### Wildcard matcher: fuel stability and specification -/

theorem tmatchF_fuel : ∀ (k n m : Nat) (ts : List (Char × Bool)) (s : List Char),
    ts.length + s.length ≤ k → ts.length + s.length < n → ts.length + s.length < m →
    tmatchF n ts s = tmatchF m ts s := by
  intro k
  induction k with
  | zero =>
    intro n m ts s hk hn hm
    obtain ⟨n', rfl⟩ : ∃ n', n = n' + 1 := ⟨n - 1, by omega⟩
    obtain ⟨m', rfl⟩ : ∃ m', m = m' + 1 := ⟨m - 1, by omega⟩
    have hts : ts = [] := List.eq_nil_of_length_eq_zero (by omega)
    have hs : s = [] := List.eq_nil_of_length_eq_zero (by omega)
    subst hts; subst hs; rfl
  | succ K ih =>
    intro n m ts s hk hn hm
    obtain ⟨n', rfl⟩ : ∃ n', n = n' + 1 := ⟨n - 1, by omega⟩
    obtain ⟨m', rfl⟩ : ∃ m', m = m' + 1 := ⟨m - 1, by omega⟩
    rcases ts with _ | ⟨⟨a, star⟩, ts⟩
    · cases s <;> rfl
    · simp only [List.length_cons] at hk hn hm
      cases star
      · cases s with
        | nil => rfl
        | cons c cs =>
          show (atomMatch a c && tmatchF n' ts cs) = (atomMatch a c && tmatchF m' ts cs)
          simp only [List.length_cons] at hk hn hm
          rw [ih n' m' ts cs (by omega) (by omega) (by omega)]
      · cases s with
        | nil =>
          show (tmatchF n' ts [] || false) = (tmatchF m' ts [] || false)
          rw [ih n' m' ts [] (by simp; omega) (by simp; omega) (by simp; omega)]
        | cons c cs =>
          show (tmatchF n' ts (c :: cs) ||
              (atomMatch a c && tmatchF n' ((a, true) :: ts) cs)) =
            (tmatchF m' ts (c :: cs) ||
              (atomMatch a c && tmatchF m' ((a, true) :: ts) cs))
          simp only [List.length_cons] at hk hn hm
          rw [ih n' m' ts (c :: cs) (by simp; omega) (by simp; omega) (by simp; omega),
            ih n' m' ((a, true) :: ts) cs (by simp; omega) (by simp; omega) (by simp; omega)]

theorem tmatch_eq_tmatchF (n : Nat) (ts : List (Char × Bool)) (s : List Char)
    (h : ts.length + s.length < n) : tmatchF n ts s = tmatch ts s :=
  tmatchF_fuel (ts.length + s.length) n (ts.length + s.length + 1) ts s le_rfl h (by omega)

theorem tmatch_nil (s : List Char) : tmatch [] s = true ↔ s = [] := by
  cases s <;> simp [tmatch, tmatchF]

theorem tmatch_star (a : Char) (ts : List (Char × Bool)) (s : List Char) :
    tmatch ((a, true) :: ts) s =
      (tmatch ts s ||
        match s with
        | [] => false
        | c :: cs => atomMatch a c && tmatch ((a, true) :: ts) cs) := by
  have key : ∀ (F : Nat), ts.length + s.length + 1 < F + 1 →
      tmatchF (F + 1) ((a, true) :: ts) s =
        (tmatch ts s ||
          match s with
          | [] => false
          | c :: cs => atomMatch a c && tmatch ((a, true) :: ts) cs) := by
    intro F hF
    cases s with
    | nil =>
      show (tmatchF F ts [] || false) = (tmatch ts [] || false)
      rw [tmatch_eq_tmatchF F ts [] (by simp at hF ⊢; omega)]
    | cons c cs =>
      show (tmatchF F ts (c :: cs) || (atomMatch a c && tmatchF F ((a, true) :: ts) cs)) = _
      rw [tmatch_eq_tmatchF F ts (c :: cs) (by simp at hF ⊢; omega),
        tmatch_eq_tmatchF F ((a, true) :: ts) cs (by simp at hF ⊢; omega)]
  exact key (((a, true) :: ts).length + s.length) (by simp)

theorem tmatch_one (a : Char) (ts : List (Char × Bool)) (s : List Char) :
    tmatch ((a, false) :: ts) s =
      (match s with
       | [] => false
       | c :: cs => atomMatch a c && tmatch ts cs) := by
  cases s with
  | nil => rfl
  | cons c cs =>
    show (atomMatch a c && tmatchF (((a, false) :: ts).length + (c :: cs).length) ts cs) = _
    rw [tmatch_eq_tmatchF _ ts cs (by simp; omega)]

theorem translateStar_star (rest : List Char) :
    translateStar ('*' :: rest) = '.' :: '*' :: translateStar rest := by
  simp [translateStar]

theorem translateStar_lit (c : Char) (h : c ≠ '*') (rest : List Char) :
    translateStar (c :: rest) = c :: translateStar rest := by
  simp [translateStar, h]

/-- The head of a translated pattern is never a bare `*`. -/
theorem translateStar_head_ne (q : List Char) :
    ∀ (b : Char) (X : List Char), translateStar q = b :: X → ¬ b = '*' := by
  cases q with
  | nil => intro b X h; simp [translateStar] at h
  | cons d rest =>
    intro b X h
    by_cases hd : d = '*'
    · subst hd
      rw [translateStar_star] at h
      injection h with h1 _
      cases h1
      decide
    · rw [translateStar_lit d hd] at h
      injection h with h1 _
      cases h1
      exact hd

theorem tokenizeRegex_translate : ∀ (q : List Char),
    tokenizeRegex (translateStar q) =
      q.map fun c => if c = '*' then ('.', true) else (c, false) := by
  intro q
  induction q with
  | nil => rfl
  | cons c rest ih =>
    by_cases hc : c = '*'
    · subst hc
      rw [translateStar_star]
      rw [show tokenizeRegex ('.' :: '*' :: translateStar rest) =
        ('.', true) :: tokenizeRegex (translateStar rest) from rfl]
      simp [ih]
    · rw [translateStar_lit c hc]
      rcases hX : translateStar rest with _ | ⟨b, X⟩
      · rw [hX] at ih
        rw [show tokenizeRegex [c] = [(c, false)] from rfl]
        simp [hc, ← ih, tokenizeRegex]
      · have hb : ¬ b = '*' := translateStar_head_ne rest b X hX
        rw [show tokenizeRegex (c :: b :: X) =
          if b = '*' then (c, true) :: tokenizeRegex X
          else (c, false) :: tokenizeRegex (b :: X) from rfl]
        rw [if_neg hb, ← hX, ih]
        simp [hc]

/-- The matcher's specification, written from the amended claim: each `*`
matches a run of non-line-terminator characters, `.` matches any single
non-line-terminator character, every other character matches itself. -/
def SpecWild : List Char → List Char → Prop
  | [], s => s = []
  | a :: ps, s =>
    if a = '*' then
      ∃ r rest, s = r ++ rest ∧ (∀ c ∈ r, isLineTerm c = false) ∧ SpecWild ps rest
    else if a = '.' then
      ∃ c cs, s = c :: cs ∧ isLineTerm c = false ∧ SpecWild ps cs
    else ∃ cs, s = a :: cs ∧ SpecWild ps cs

theorem specWild_nil (s : List Char) : SpecWild [] s ↔ s = [] := by
  simp [SpecWild]

theorem specWild_star (ps : List Char) (s : List Char) :
    SpecWild ('*' :: ps) s ↔
      ∃ r rest, s = r ++ rest ∧ (∀ c ∈ r, isLineTerm c = false) ∧ SpecWild ps rest := by
  simp [SpecWild]

theorem specWild_dot (ps : List Char) (s : List Char) :
    SpecWild ('.' :: ps) s ↔
      ∃ c cs, s = c :: cs ∧ isLineTerm c = false ∧ SpecWild ps cs := by
  simp [SpecWild]

theorem specWild_lit (a : Char) (ha : a ≠ '*') (hd : a ≠ '.') (ps : List Char)
    (s : List Char) :
    SpecWild (a :: ps) s ↔ ∃ cs, s = a :: cs ∧ SpecWild ps cs := by
  simp [SpecWild, ha, hd]

theorem wmatch_star_rep (qt : List Char) (u : List Char) :
    rmatch (translateStar ('*' :: qt)) u =
      tmatch (('.', true) :: tokenizeRegex (translateStar qt)) u := by
  rw [rmatch, translateStar_star]
  rw [show tokenizeRegex ('.' :: '*' :: translateStar qt) =
    ('.', true) :: tokenizeRegex (translateStar qt) from rfl]

theorem wmatch_star_nil (qt : List Char) :
    rmatch (translateStar ('*' :: qt)) [] = rmatch (translateStar qt) [] := by
  rw [wmatch_star_rep, tmatch_star]
  show (tmatch (tokenizeRegex (translateStar qt)) [] || false) = _
  rw [Bool.or_false]
  rfl

theorem wmatch_star_cons (qt : List Char) (c : Char) (cs : List Char) :
    rmatch (translateStar ('*' :: qt)) (c :: cs) =
      (rmatch (translateStar qt) (c :: cs) ||
        (!(isLineTerm c) && rmatch (translateStar ('*' :: qt)) cs)) := by
  rw [wmatch_star_rep, tmatch_star]
  show (tmatch (tokenizeRegex (translateStar qt)) (c :: cs) ||
    (atomMatch '.' c && tmatch (('.', true) :: tokenizeRegex (translateStar qt)) cs)) = _
  rw [← wmatch_star_rep]
  rfl

theorem wmatch_lit_rep (c : Char) (hc : c ≠ '*') (qt : List Char) (s : List Char) :
    rmatch (translateStar (c :: qt)) s =
      tmatch ((c, false) :: tokenizeRegex (translateStar qt)) s := by
  rw [rmatch, tokenizeRegex_translate]
  simp only [List.map_cons, if_neg hc, ← tokenizeRegex_translate]

theorem wmatch_lit_nil (c : Char) (hc : c ≠ '*') (qt : List Char) :
    rmatch (translateStar (c :: qt)) [] = false := by
  rw [wmatch_lit_rep c hc]
  rfl

theorem wmatch_lit_cons (c : Char) (hc : c ≠ '*') (qt : List Char) (a : Char)
    (cs : List Char) :
    rmatch (translateStar (c :: qt)) (a :: cs) =
      (atomMatch c a && rmatch (translateStar qt) cs) := by
  rw [wmatch_lit_rep c hc, tmatch_one]
  rfl

/-- The wildcard matcher agrees with the declarative specification on every
pattern and candidate. -/
theorem wildcard_equiv : ∀ (k : Nat) (q s : List Char), q.length + s.length ≤ k →
    (rmatch (translateStar q) s = true ↔ SpecWild q s) := by
  intro k
  induction k with
  | zero =>
    intro q s hk
    have hq : q = [] := List.eq_nil_of_length_eq_zero (by omega)
    have hs : s = [] := List.eq_nil_of_length_eq_zero (by omega)
    subst hq; subst hs
    simp only [specWild_nil]
    simpa using (by decide : rmatch (translateStar []) [] = true)
  | succ K ih =>
    intro q s hk
    rcases q with _ | ⟨c, qt⟩
    · exact (tmatch_nil s).trans (specWild_nil s).symm
    · simp only [List.length_cons] at hk
      by_cases hc : c = '*'
      · subst hc
        cases s with
        | nil =>
          rw [wmatch_star_nil, specWild_star]
          constructor
          · intro h
            exact ⟨[], [], rfl, by simp, (ih qt [] (by simp; omega)).mp h⟩
          · rintro ⟨r, rest, heq, -, hsw⟩
            obtain ⟨rfl, rfl⟩ := List.append_eq_nil.mp heq.symm
            exact (ih qt [] (by simp; omega)).mpr hsw
        | cons a cs =>
          rw [wmatch_star_cons, specWild_star, Bool.or_eq_true, Bool.and_eq_true]
          simp only [List.length_cons] at hk
          constructor
          · intro h
            rcases h with h1 | ⟨hterm, hrec⟩
            · exact ⟨[], a :: cs, rfl, by simp, (ih qt (a :: cs) (by simp; omega)).mp h1⟩
            · have hsw := (ih ('*' :: qt) cs (by simp; omega)).mp hrec
              rw [specWild_star] at hsw
              obtain ⟨r', rest', heq', hcl', hsw'⟩ := hsw
              refine ⟨a :: r', rest', by rw [heq', List.cons_append], ?_, hsw'⟩
              intro x hx
              rcases List.mem_cons.mp hx with rfl | hx'
              · simpa using hterm
              · exact hcl' x hx'
          · rintro ⟨r, rest, heq, hcl, hsw⟩
            cases r with
            | nil =>
              left
              rw [List.nil_append] at heq
              subst heq
              exact (ih qt (a :: cs) (by simp; omega)).mpr hsw
            | cons a' r' =>
              right
              rw [List.cons_append] at heq
              injection heq with h1 h2
              subst h1
              refine ⟨by simp [hcl a (List.mem_cons_self a r')], ?_⟩
              apply (ih ('*' :: qt) cs (by simp; omega)).mpr
              rw [specWild_star]
              exact ⟨r', rest, h2, fun x hx => hcl x (List.mem_cons_of_mem _ hx), hsw⟩
      · cases s with
        | nil =>
          rw [wmatch_lit_nil c hc]
          constructor
          · intro h
            exact absurd h (by simp)
          · intro hsw
            exfalso
            by_cases hd : c = '.'
            · subst hd
              rw [specWild_dot] at hsw
              obtain ⟨a, cs, h, -, -⟩ := hsw
              simp at h
            · rw [specWild_lit c hc hd] at hsw
              obtain ⟨cs, h, -⟩ := hsw
              simp at h
        | cons a cs =>
          rw [wmatch_lit_cons c hc, Bool.and_eq_true]
          simp only [List.length_cons] at hk
          by_cases hd : c = '.'
          · subst hd
            rw [specWild_dot]
            rw [show atomMatch '.' a = !(isLineTerm a) from rfl]
            constructor
            · rintro ⟨h1, h2⟩
              exact ⟨a, cs, rfl, by simpa using h1, (ih qt cs (by omega)).mp h2⟩
            · rintro ⟨a', cs', heq, hterm, hsw⟩
              injection heq with h1 h2
              subst h1
              subst h2
              exact ⟨by simp [hterm], (ih qt cs (by omega)).mpr hsw⟩
          · rw [specWild_lit c hc hd]
            rw [show atomMatch c a = (c == a) from by simp [atomMatch, hd]]
            constructor
            · rintro ⟨h1, h2⟩
              obtain rfl := beq_iff_eq.mp h1
              exact ⟨cs, rfl, (ih qt cs (by omega)).mp h2⟩
            · rintro ⟨cs', heq, hsw⟩
              injection heq with h1 h2
              subst h1
              subst h2
              exact ⟨by simp, (ih qt cs (by omega)).mpr hsw⟩

/-- Characters with special meaning in the built regex besides the `.` and
`*` the translation introduces; the matcher's JS fidelity is restricted to
patterns avoiding them (a JS `RegExp` would interpret or reject them). -/
def regexMetaChars : List Char :=
  ['+', '?', '(', ')', '[', ']', '\x7b', '\x7d', '^', '$', '\\', '|']

/-- C4 (amended): after trimming and lowercasing the pattern — which must
be non-empty and free of regex metacharacters other than `*` and `.` —
a pattern with no `*` matches exactly on case-insensitive equality, and a
pattern with `*`s matches exactly when the candidate equals the pattern
with each `*` replaced by some run of characters and every other character
matching itself literally, except that `.` (left unescaped by the regex
translation) matches any single non-line-terminator character. -/
theorem wildcard_match_spec (name pat : List Char)
    (hne : trimJS (toLowerJS pat) ≠ [])
    (_hmeta : ∀ c ∈ trimJS (toLowerJS pat), c ∉ regexMetaChars) :
    ((trimJS (toLowerJS pat)).contains '*' = false →
       (fileNameMatchesPattern (toLowerJS name) pat = true ↔
         toLowerJS name = trimJS (toLowerJS pat))) ∧
    ((trimJS (toLowerJS pat)).contains '*' = true →
       (fileNameMatchesPattern (toLowerJS name) pat = true ↔
         SpecWild (trimJS (toLowerJS pat)) (toLowerJS name))) := by
  constructor
  · intro hstar
    simp only [fileNameMatchesPattern]
    rw [if_neg hne, if_neg (by rw [hstar]; exact Bool.false_ne_true)]
    exact beq_iff_eq
  · intro hstar
    simp only [fileNameMatchesPattern]
    rw [if_neg hne, if_pos hstar]
    exact wildcard_equiv ((trimJS (toLowerJS pat)).length + (toLowerJS name).length)
      _ _ le_rfl

/-- Witness for the amended C4 at the pattern `*.tmp` and the candidate
`notes.tmp`. -/
theorem wildcard_match_spec_witness :
    fileNameMatchesPattern (toLowerJS "notes.tmp".data) "*.tmp".data = true ↔
      SpecWild (trimJS (toLowerJS "*.tmp".data)) (toLowerJS "notes.tmp".data) :=
  (wildcard_match_spec "notes.tmp".data "*.tmp".data (by decide) (by decide)).2 (by decide)

/-- The frozen claim's reading of wildcard matching: each `*` matches any
run of characters, every other pattern character matches only itself. -/
def LiteralWild : List Char → List Char → Prop
  | [], s => s = []
  | a :: ps, s =>
    if a = '*' then ∃ r rest, s = r ++ rest ∧ LiteralWild ps rest
    else ∃ cs, s = a :: cs ∧ LiteralWild ps cs

/-- Star-free literal patterns force equality. -/
theorem literalWild_no_star : ∀ (p s : List Char), (∀ c ∈ p, c ≠ '*') →
    (LiteralWild p s ↔ s = p) := by
  intro p
  induction p with
  | nil => intro s _; simp [LiteralWild]
  | cons a ps ih =>
    intro s hp
    have ha : a ≠ '*' := hp a (List.mem_cons_self a ps)
    simp only [LiteralWild, if_neg ha]
    constructor
    · rintro ⟨cs, rfl, hl⟩
      rw [(ih cs fun c hc => hp c (List.mem_cons_of_mem a hc)).mp hl]
    · rintro rfl
      exact ⟨ps, rfl, (ih ps fun c hc => hp c (List.mem_cons_of_mem a hc)).mpr rfl⟩

/-- C4 counterexample: pattern `*.tmp` matches the candidate `xxtmp` under
the code — the unescaped `.` matches the second `x` — while the claim's
star-runs-plus-literal-characters reading rejects that candidate. -/
theorem wildcard_counterexample :
    fileNameMatchesPattern (toLowerJS "xxtmp".data) "*.tmp".data = true ∧
    ¬ LiteralWild (trimJS (toLowerJS "*.tmp".data)) (toLowerJS "xxtmp".data) := by
  refine ⟨by decide, ?_⟩
  intro h
  rw [show trimJS (toLowerJS "*.tmp".data) = '*' :: '.' :: 't' :: 'm' :: 'p' :: []
      from by decide,
    show toLowerJS "xxtmp".data = 'x' :: 'x' :: 't' :: 'm' :: 'p' :: []
      from by decide] at h
  rw [show LiteralWild ('*' :: '.' :: 't' :: 'm' :: 'p' :: [])
        ('x' :: 'x' :: 't' :: 'm' :: 'p' :: []) ↔
      ∃ r rest, 'x' :: 'x' :: 't' :: 'm' :: 'p' :: ([] : List Char) = r ++ rest ∧
        LiteralWild ('.' :: 't' :: 'm' :: 'p' :: []) rest
      from by simp [LiteralWild]] at h
  obtain ⟨r, rest, heq, hrest⟩ := h
  rw [literalWild_no_star _ _ (by decide)] at hrest
  subst hrest
  rcases r with _ | ⟨c1, r1⟩
  · rw [List.nil_append] at heq
    injection heq with e1 _
    exact absurd e1 (by decide)
  · rcases r1 with _ | ⟨c2, r2⟩
    · rw [List.cons_append, List.nil_append] at heq
      injection heq with e1 e2
      injection e2 with e3 _
      exact absurd e3 (by decide)
    · have hlen := congrArg List.length heq
      simp only [List.length_cons, List.length_append] at hlen
      omega

/-- The truthiness test characterised: exactly the four listed values. -/
theorem isTruthyFmOpt_iff (o : Option FmVal) :
    isTruthyFmOpt o = true ↔
      ∃ v, o = some v ∧
        (v = FmVal.b true ∨ v = FmVal.s "true".data ∨
         v = FmVal.n 1 ∨ v = FmVal.s "1".data) := by
  cases o with
  | none => simp [isTruthyFmOpt]
  | some v => cases v <;> simp [isTruthyFmOpt]

/-- C8: metadata exclusion triggers exactly when some configured key is
present in the document's frontmatter with value `true`, `'true'`, `1`, or
`'1'`; no other value and no absent key triggers it. -/
theorem metadata_truthy_exclusion :
    ∀ (s : ShareAsZipSettings) (f : TFile),
      isFrontmatterExcluded s f = true ↔
        ∃ key ∈ s.excludedFrontmatterKeys, ∃ fm v,
          f.frontmatter = some fm ∧ lookupStr key fm = some v ∧
          (v = FmVal.b true ∨ v = FmVal.s "true".data ∨
           v = FmVal.n 1 ∨ v = FmVal.s "1".data) := by
  intro s f
  rw [isFrontmatterExcluded]
  split
  · simp_all
  · cases hfm : f.frontmatter with
    | none => simp
    | some fm => simp [List.any_eq_true, isTruthyFmOpt_iff, hfm]
